import Mathlib

/-
Verification of the core indexing-and-resolution pipeline (a gradual type
checker front end).  The definitions below are a shallow embedding of the
C++ sources:

  * src/main/pipeline/pipeline.cc  (strict-level decision, per-file indexing,
    the indexing coordinator)
  * src/namer/namer.cc             (method redefinition, class-body DSL flags)
  * src/core/Names.cc              (name-table sanity check, substitution
    debug check)
  * src/core/errors/namer.h        (namer diagnostic classes)

Machinery that lives outside these files (the StrictLevel enum, the AST node
types, GlobalState symbol-table entry points) is modelled from the
specification; each such definition is marked `Modelled from the spec:` in
its doc comment.
-/

namespace Sorbet

/-- Modelled from the spec: the `core::StrictLevel` enum is declared outside
the sources at hand (core/Files.h); the constructors are the ones the
pipeline sources name (`incrementStrictLevelCounter` enumerates all of them)
and the numeric order is the one the spec implies: `None` below everything,
`Internal` and `Ignore` below the clampable range `False..Max`, and
`Autogenerated`, `Stdlib` above `Max`. -/
inductive StrictLevel where
  | None
  | Internal
  | Ignore
  | False
  | True
  | Strict
  | Strong
  | Max
  | Autogenerated
  | Stdlib
deriving DecidableEq, Repr

/-- Numeric value of a strict level (the underlying C++ enum value). -/
def StrictLevel.toNat : StrictLevel → Nat
  | .None => 0
  | .Internal => 1
  | .Ignore => 2
  | .False => 3
  | .True => 4
  | .Strict => 5
  | .Strong => 6
  | .Max => 7
  | .Autogenerated => 8
  | .Stdlib => 9

/-- C++ `<=` on the StrictLevel enum (comparison of underlying values). -/
def slLe (a b : StrictLevel) : Bool := a.toNat ≤ b.toNat

/-- C++ `<` on the StrictLevel enum. -/
def slLt (a b : StrictLevel) : Bool := a.toNat < b.toNat

/-- C++ `std::min` on StrictLevel. -/
def slMin (a b : StrictLevel) : StrictLevel := if slLe a b then a else b

/-- C++ `std::max` on StrictLevel. -/
def slMax (a b : StrictLevel) : StrictLevel := if slLt a b then b else a

/-- Diagnostic classes emitted by the modelled code paths.  The namer classes
are from src/core/errors/namer.h (codes 4001..4018); `ParserError` is
`core::errors::Parser::ParserError` and `InternalError` / `FileNotFound` are
`core::errors::Internal::*`, which the pipeline references from headers that
are not among the sources at hand. -/
inductive ErrorClass where
  | InternalError
  | FileNotFound
  | ParserError
  | IncludeMutipleParam
  | AncestorNotConstant
  | IncludePassedBlock
  | DynamicDSLInvocation
  | MethodNotFound
  | RedefinitionOfMethod
  | InvalidTypeDefinition
  | ModuleKindRedefinition
  | InterfaceClass
  | DynamicConstant
  | InvalidClassOwner
  | RootTypeMember
  | DynamicConstantAssignment
deriving DecidableEq, Repr

/-- The `options::Phase` enum (options.h is outside the sources at hand;
the spec lists the members in section 6). -/
inductive Phase where
  | INIT
  | PARSER
  | DESUGARER
  | DSL
  | LOCAL_VARS
  | NAMER
  | RESOLVER
  | CFG
  | INFERENCER
deriving DecidableEq, Repr

/-- The slice of `realmain::options::Options` that the modelled code reads. -/
structure Options where
  strictnessOverrides : List (String × StrictLevel)
  forceMinStrict : StrictLevel
  forceMaxStrict : StrictLevel
  stopAfterPhase : Phase
  skipDSLPasses : Bool
deriving DecidableEq, Repr

/-- The slice of `core::File` that `decideStrictLevel` and
`readFileWithStrictnessOverrides` read: the path, the sigil written in the
source, and whether `fs->readFile` finds the file on disk. -/
structure FileData where
  path : String
  originalSigil : StrictLevel
  found : Bool
deriving DecidableEq, Repr

/-- `absl::StartsWith`: byte-wise prefix test on strings. -/
def strStartsWith (s pre : String) : Bool :=
  pre.data.isPrefixOf s.data

/-- Path normalization from `decideStrictLevel`: make sure all relative file
paths start with `./` before they are looked up in the overrides map. -/
def normalizeFilePath (path : String) : String :=
  if strStartsWith path "/" || strStartsWith path "./" then path else "./" ++ path

/-- `decideStrictLevel` from src/main/pipeline/pipeline.cc lines 351..390.
Returns the decided level together with the diagnostics emitted (the
"Useless override of strictness level" error is emitted with class
`core::errors::Parser::ParserError`).  `runningUnderAutogen` is the
`GlobalState` field read at line 384. -/
def decideStrictLevel (opts : Options) (runningUnderAutogen : Bool) (fileData : FileData) :
    StrictLevel × List ErrorClass :=
  let fnd := opts.strictnessOverrides.lookup (normalizeFilePath fileData.path)
  let selected :=
    match fnd with
    | some ov =>
        (ov, if ov = fileData.originalSigil then [ErrorClass.ParserError] else [])
    | none =>
        (if fileData.originalSigil = StrictLevel.None then StrictLevel.False
         else fileData.originalSigil, [])
  let level := selected.fst
  let level :=
    if slLe level StrictLevel.Max && slLt StrictLevel.Ignore level then
      slMax (slMin level opts.forceMaxStrict) opts.forceMinStrict
    else level
  let level := if runningUnderAutogen then StrictLevel.False else level
  (level, selected.snd)

/-- The level `decideStrictLevel` selects before clamping: the override when
the normalized path is present in the overrides map, else the sigil, else
`False`. -/
def selectedStrictLevel (opts : Options) (fileData : FileData) : StrictLevel :=
  match opts.strictnessOverrides.lookup (normalizeFilePath fileData.path) with
  | some ov => ov
  | none =>
      if fileData.originalSigil = StrictLevel.None then StrictLevel.False
      else fileData.originalSigil

/-- Claim C3 rendered literally from the spec words: clamp the selected level
to `[forceMinStrict, forceMaxStrict]` unless the level is `Ignore` or
`Internal`; under autogen force `False`. -/
def decideStrictLevelClaimC3 (opts : Options) (runningUnderAutogen : Bool)
    (fileData : FileData) : StrictLevel :=
  let level := selectedStrictLevel opts fileData
  let level :=
    if level = StrictLevel.Ignore ∨ level = StrictLevel.Internal then level
    else slMax (slMin level opts.forceMaxStrict) opts.forceMinStrict
  if runningUnderAutogen then StrictLevel.False else level

/-- C3 (counterexample): the claim fails on a file whose sigil is
`Autogenerated`.  With `forceMinStrict = False`, `forceMaxStrict = True` and
no override, `decideStrictLevel` leaves the level at `Autogenerated` (the
code clamps only when `Ignore < level <= Max`), while the claim as stated
(clamp unless `Ignore` or `Internal`) would clamp it down to `True`. -/
theorem decideStrictLevel_claimC3_counterexample :
    (decideStrictLevel
        { strictnessOverrides := [], forceMinStrict := StrictLevel.False,
          forceMaxStrict := StrictLevel.True, stopAfterPhase := Phase.INFERENCER,
          skipDSLPasses := false }
        false ⟨"a.rb", StrictLevel.Autogenerated, true⟩).fst = StrictLevel.Autogenerated
    ∧ decideStrictLevelClaimC3
        { strictnessOverrides := [], forceMinStrict := StrictLevel.False,
          forceMaxStrict := StrictLevel.True, stopAfterPhase := Phase.INFERENCER,
          skipDSLPasses := false }
        false ⟨"a.rb", StrictLevel.Autogenerated, true⟩ = StrictLevel.True := by
  exact ⟨rfl, rfl⟩

/-- C3 (amended): after the level is chosen (override if present, else the
sigil, else `False`), it is clamped to `[forceMinStrict, forceMaxStrict]`
exactly when `Ignore < level <= Max`; so the clamp is skipped not only for
`Ignore` and `Internal` but also for `None`, `Autogenerated` and `Stdlib`.
When `runningUnderAutogen` is set the result is `False` regardless. -/
theorem decideStrictLevel_clamp_characterization (opts : Options) (aut : Bool)
    (fd : FileData) :
    (decideStrictLevel opts aut fd).fst =
      (if aut then StrictLevel.False
       else if slLe (selectedStrictLevel opts fd) StrictLevel.Max
              && slLt StrictLevel.Ignore (selectedStrictLevel opts fd) then
         slMax (slMin (selectedStrictLevel opts fd) opts.forceMaxStrict) opts.forceMinStrict
       else selectedStrictLevel opts fd) := by
  simp only [decideStrictLevel, selectedStrictLevel]
  cases List.lookup (normalizeFilePath fd.path) opts.strictnessOverrides <;> rfl

/-- C4 (counterexample): a file whose normalized path is present in the
overrides map does not always get the overridden level as its strict level:
with override `Strict` and `forceMaxStrict = True` the clamp lowers the
result to `True`. -/
theorem decideStrictLevel_override_counterexample :
    List.lookup (normalizeFilePath "a.rb") [("./a.rb", StrictLevel.Strict)] =
        some StrictLevel.Strict
    ∧ (decideStrictLevel
        { strictnessOverrides := [("./a.rb", StrictLevel.Strict)],
          forceMinStrict := StrictLevel.False, forceMaxStrict := StrictLevel.True,
          stopAfterPhase := Phase.INFERENCER, skipDSLPasses := false }
        false ⟨"a.rb", StrictLevel.None, true⟩).fst ≠ StrictLevel.Strict := by
  refine ⟨rfl, ?_⟩
  have hv : (decideStrictLevel
      { strictnessOverrides := [("./a.rb", StrictLevel.Strict)],
        forceMinStrict := StrictLevel.False, forceMaxStrict := StrictLevel.True,
        stopAfterPhase := Phase.INFERENCER, skipDSLPasses := false }
      false ⟨"a.rb", StrictLevel.None, true⟩).fst = StrictLevel.True := rfl
  rw [hv]
  decide

/-- C4 (amended): when the normalized path is present in the overrides map,
the overridden level is the selected level (still subject to the
`[forceMinStrict, forceMaxStrict]` clamp when `Ignore < level <= Max`, and to
the autogen forcing), and a "useless override" diagnostic (emitted under
error class `Parser::ParserError`) is emitted if and only if the override
equals the file's own `originalSigil`. -/
theorem decideStrictLevel_override (opts : Options) (aut : Bool) (fd : FileData)
    (ov : StrictLevel)
    (h : opts.strictnessOverrides.lookup (normalizeFilePath fd.path) = some ov) :
    (decideStrictLevel opts aut fd).snd =
        (if ov = fd.originalSigil then [ErrorClass.ParserError] else [])
    ∧ selectedStrictLevel opts fd = ov
    ∧ (decideStrictLevel opts aut fd).fst =
        (if aut then StrictLevel.False
         else if slLe ov StrictLevel.Max && slLt StrictLevel.Ignore ov then
           slMax (slMin ov opts.forceMaxStrict) opts.forceMinStrict
         else ov) := by
  refine ⟨?_, ?_, ?_⟩ <;> simp only [decideStrictLevel, selectedStrictLevel, h]

/-- C4 (witness): the amended override theorem applied to a concrete file
whose override (`True`) equals its own sigil, so the useless-override
diagnostic fires and the result is the override itself. -/
theorem decideStrictLevel_override_witness :
    (decideStrictLevel
        { strictnessOverrides := [("./b.rb", StrictLevel.True)],
          forceMinStrict := StrictLevel.False, forceMaxStrict := StrictLevel.Strict,
          stopAfterPhase := Phase.INFERENCER, skipDSLPasses := false }
        false ⟨"b.rb", StrictLevel.True, true⟩).snd = [ErrorClass.ParserError]
    ∧ (decideStrictLevel
        { strictnessOverrides := [("./b.rb", StrictLevel.True)],
          forceMinStrict := StrictLevel.False, forceMaxStrict := StrictLevel.Strict,
          stopAfterPhase := Phase.INFERENCER, skipDSLPasses := false }
        false ⟨"b.rb", StrictLevel.True, true⟩).fst = StrictLevel.True := by
  have h := decideStrictLevel_override
    { strictnessOverrides := [("./b.rb", StrictLevel.True)],
      forceMinStrict := StrictLevel.False, forceMaxStrict := StrictLevel.Strict,
      stopAfterPhase := Phase.INFERENCER, skipDSLPasses := false }
    false ⟨"b.rb", StrictLevel.True, true⟩ StrictLevel.True rfl
  exact ⟨by rw [h.1]; decide, by rw [h.2.2]; decide⟩

/-- File ids (`core::FileRef`).  Id 0 is the nonexistent file that
`core::Loc::none()` refers to. -/
abbrev FileRef := Nat

/-- Modelled from the spec: the abstract tree type (`ast::Expression`) lives
outside the sources at hand; the pipeline claims observe only whether a tree
is `ast::EmptyTree` and which file its root `loc` carries.  `node` stands for
any non-empty expression with an opaque payload; the `EmptyTree` built by
`emptyParsedFile` carries `Loc::none()`, hence no file. -/
inductive Tree where
  | emptyTree
  | node (file : FileRef) (payload : Nat)
deriving DecidableEq, Repr

/-- `tree->loc.file()`: the file of the root loc; `none` stands for the
nonexistent file of `Loc::none()`. -/
def treeFile : Tree → Option FileRef
  | .emptyTree => none
  | .node f _ => some f

/-- A thrown `SorbetException` (its payload is irrelevant to the claims). -/
structure SorbetExn where
  msg : String
deriving DecidableEq, Repr

/-- `ast::ParsedFile`: a tree paired with the file it came from. -/
structure ParsedFile where
  tree : Tree
  file : FileRef
deriving DecidableEq, Repr

/-- `emptyParsedFile` from src/main/pipeline/pipeline.cc lines 166..168. -/
def emptyParsedFile (file : FileRef) : ParsedFile :=
  ⟨Tree.emptyTree, file⟩

/-- Opaque parser output (`parser::Node`). -/
abbrev ParseNode := Nat

/-- Opaque plugin-generated source file (`shared_ptr<core::File>`); it gets a
`FileRef` when entered into the file table. -/
abbrev GeneratedFile := Nat

/-- One per-file diagnostic: the file it is attached to and its class. -/
structure Diag where
  file : FileRef
  what : ErrorClass
deriving DecidableEq, Repr

/-- Modelled from the spec: the behaviour of the external phases the indexer
drives per file (parser, desugarer, subprocess plugin, DSL passes,
local-variable resolution) and of the parse-tree cache (`kvstore` read plus
`Serializer::loadExpression`).  Each phase may throw; `cacheRead file = none`
also covers the absent-kvstore and unread-file guards of
`fetchTreeFromCache`. -/
structure IndexPhases where
  runParser : FileRef → Except SorbetExn ParseNode
  runDesugar : FileRef → ParseNode → Except SorbetExn Tree
  pluginRun : FileRef → Tree → Except SorbetExn (Tree × List GeneratedFile)
  runDSL : FileRef → Tree → Except SorbetExn Tree
  runLocalVars : FileRef → Tree → Except SorbetExn Tree
  cacheRead : FileRef → Option Tree

/-- `fetchTreeFromCache` from src/main/pipeline/pipeline.cc lines 83..99: on
a cache hit the deserialized tree is returned after the debug check
`ENFORCE(cachedTree->loc.file() == file)`; a failed `ENFORCE` throws a
`SorbetException`. -/
def fetchTreeFromCache (ph : IndexPhases) (file : FileRef) :
    Except SorbetExn (Option Tree) :=
  match ph.cacheRead file with
  | some cachedTree =>
      if treeFile cachedTree = some file then Except.ok (some cachedTree)
      else Except.error ⟨"ENFORCE: cached tree loc file differs from requested file"⟩
  | none => Except.ok none

/-- The body of `indexOne` (src/main/pipeline/pipeline.cc lines 170..220)
without its catch-all: each `Except.error` is a `SorbetException`
propagating out of a phase.  The early `return emptyParsedFile(file)` exits
are the `Ignore` short-circuit and the `stopAfterPhase` checks. -/
def indexOneUncaught (opts : Options) (level : StrictLevel) (ph : IndexPhases)
    (file : FileRef) : Except SorbetExn ParsedFile :=
  match fetchTreeFromCache ph file with
  | .error e => .error e
  | .ok (some tree) =>
      if opts.stopAfterPhase = Phase.DSL then .ok (emptyParsedFile file)
      else .ok ⟨tree, file⟩
  | .ok none =>
      if level = StrictLevel.Ignore then .ok (emptyParsedFile file) else
      match ph.runParser file with
      | .error e => .error e
      | .ok parseTree =>
        if opts.stopAfterPhase = Phase.PARSER then .ok (emptyParsedFile file) else
        match ph.runDesugar file parseTree with
        | .error e => .error e
        | .ok tree1 =>
          if opts.stopAfterPhase = Phase.DESUGARER then .ok (emptyParsedFile file) else
          match (if opts.skipDSLPasses then Except.ok tree1 else ph.runDSL file tree1) with
          | .error e => .error e
          | .ok tree2 =>
            match ph.runLocalVars file tree2 with
            | .error e => .error e
            | .ok tree3 =>
              if opts.stopAfterPhase = Phase.LOCAL_VARS then .ok (emptyParsedFile file)
              else if opts.stopAfterPhase = Phase.DSL then .ok (emptyParsedFile file)
              else .ok ⟨tree3, file⟩

/-- `indexOne` with its catch-all: an escaping `SorbetException` becomes an
`InternalError` diagnostic on the file and an empty parsed file. -/
def indexOne (opts : Options) (level : StrictLevel) (ph : IndexPhases)
    (file : FileRef) : ParsedFile × List Diag :=
  match indexOneUncaught opts level ph file with
  | .ok pf => (pf, [])
  | .error _ => (emptyParsedFile file, [⟨file, ErrorClass.InternalError⟩])

/-- The body of `indexOneWithPlugins` (src/main/pipeline/pipeline.cc lines
226..293) without its catch-all.  The subprocess plugin runs between desugar
and the DSL passes and may emit plugin-generated files; the `LOCAL_VARS` and
`DSL` stop exits return `emptyPluginFile`, discarding any collected
plugin-generated files. -/
def indexOneWithPluginsUncaught (opts : Options) (level : StrictLevel) (ph : IndexPhases)
    (file : FileRef) : Except SorbetExn (ParsedFile × List GeneratedFile) :=
  match fetchTreeFromCache ph file with
  | .error e => .error e
  | .ok (some tree) =>
      if opts.stopAfterPhase = Phase.DSL then .ok (emptyParsedFile file, [])
      else .ok (⟨tree, file⟩, [])
  | .ok none =>
      if level = StrictLevel.Ignore then .ok (emptyParsedFile file, []) else
      match ph.runParser file with
      | .error e => .error e
      | .ok parseTree =>
        if opts.stopAfterPhase = Phase.PARSER then .ok (emptyParsedFile file, []) else
        match ph.runDesugar file parseTree with
        | .error e => .error e
        | .ok tree1 =>
          if opts.stopAfterPhase = Phase.DESUGARER then .ok (emptyParsedFile file, []) else
          match ph.pluginRun file tree1 with
          | .error e => .error e
          | .ok (tree2, resultPluginFiles) =>
            match (if opts.skipDSLPasses then Except.ok tree2 else ph.runDSL file tree2) with
            | .error e => .error e
            | .ok tree3 =>
              match ph.runLocalVars file tree3 with
              | .error e => .error e
              | .ok tree4 =>
                if opts.stopAfterPhase = Phase.LOCAL_VARS then .ok (emptyParsedFile file, [])
                else if opts.stopAfterPhase = Phase.DSL then .ok (emptyParsedFile file, [])
                else .ok (⟨tree4, file⟩, resultPluginFiles)

/-- `indexOneWithPlugins` with its catch-all (`emptyPluginFile` plus an
`InternalError` diagnostic on the file). -/
def indexOneWithPlugins (opts : Options) (level : StrictLevel) (ph : IndexPhases)
    (file : FileRef) : (ParsedFile × List GeneratedFile) × List Diag :=
  match indexOneWithPluginsUncaught opts level ph file with
  | .ok r => (r, [])
  | .error _ => ((emptyParsedFile file, []), [⟨file, ErrorClass.InternalError⟩])

/-- A tree is compatible with `file`: its root loc, when it has one, lies in
`file`. -/
def treeFileOk (file : FileRef) (t : Tree) : Prop :=
  ∀ g, treeFile t = some g → g = file

/-- The contract of the external per-file phases (spec section 4.4): a phase
run for `file` produces trees whose root locs lie in `file`.  Nothing is
assumed about `cacheRead`; the cache path is guarded by the `ENFORCE` in
`fetchTreeFromCache` instead. -/
def PhasesWF (ph : IndexPhases) (file : FileRef) : Prop :=
  (∀ p t, ph.runDesugar file p = Except.ok t → treeFileOk file t)
  ∧ (∀ t t2 gens, ph.pluginRun file t = Except.ok (t2, gens) → treeFileOk file t2)
  ∧ (∀ t t2, ph.runDSL file t = Except.ok t2 → treeFileOk file t2)
  ∧ (∀ t t2, ph.runLocalVars file t = Except.ok t2 → treeFileOk file t2)

theorem fetchTreeFromCache_ok_some (ph : IndexPhases) (file : FileRef) (t : Tree)
    (h : fetchTreeFromCache ph file = Except.ok (some t)) : treeFile t = some file := by
  unfold fetchTreeFromCache at h
  split at h
  next ct heq =>
    split at h
    next hcond =>
      injection h with h2
      injection h2 with h3
      rwa [← h3]
    next hcond => exact Except.noConfusion h
  next heq =>
    injection h with h2
    cases h2

theorem indexOneUncaught_ok_inv (opts : Options) (level : StrictLevel) (ph : IndexPhases)
    (file : FileRef)
    (hlv : ∀ t t2, ph.runLocalVars file t = Except.ok t2 → treeFileOk file t2) :
    ∀ pf, indexOneUncaught opts level ph file = Except.ok pf →
      pf.file = file ∧ treeFileOk file pf.tree := by
  intro pf h
  unfold indexOneUncaught at h
  split at h
  next e heq => exact Except.noConfusion h
  next tree heq =>
    have htf := fetchTreeFromCache_ok_some ph file tree heq
    split at h
    · injection h with h2; subst h2
      exact ⟨rfl, fun g hg => by cases hg⟩
    · injection h with h2; subst h2
      refine ⟨rfl, fun g hg => ?_⟩
      rw [htf] at hg
      injection hg with hg
      exact hg.symm
  next heq =>
    split at h
    · injection h with h2; subst h2
      exact ⟨rfl, fun g hg => by cases hg⟩
    · split at h
      next e heq2 => exact Except.noConfusion h
      next pt heq2 =>
        split at h
        · injection h with h2; subst h2
          exact ⟨rfl, fun g hg => by cases hg⟩
        · split at h
          next e heq3 => exact Except.noConfusion h
          next t1 heq3 =>
            split at h
            · injection h with h2; subst h2
              exact ⟨rfl, fun g hg => by cases hg⟩
            · split at h
              next e heq4 => exact Except.noConfusion h
              next t2 heq4 =>
                split at h
                next e heq5 => exact Except.noConfusion h
                next t3 heq5 =>
                  split at h
                  · injection h with h2; subst h2
                    exact ⟨rfl, fun g hg => by cases hg⟩
                  · split at h
                    · injection h with h2; subst h2
                      exact ⟨rfl, fun g hg => by cases hg⟩
                    · injection h with h2; subst h2
                      exact ⟨rfl, hlv t2 t3 heq5⟩

theorem indexOneWithPluginsUncaught_ok_inv (opts : Options) (level : StrictLevel)
    (ph : IndexPhases) (file : FileRef)
    (hlv : ∀ t t2, ph.runLocalVars file t = Except.ok t2 → treeFileOk file t2) :
    ∀ pf gens, indexOneWithPluginsUncaught opts level ph file = Except.ok (pf, gens) →
      pf.file = file ∧ treeFileOk file pf.tree := by
  intro pf gens h
  unfold indexOneWithPluginsUncaught at h
  split at h
  next e heq => exact Except.noConfusion h
  next tree heq =>
    have htf := fetchTreeFromCache_ok_some ph file tree heq
    split at h
    · injection h with h2
      rw [Prod.mk.injEq] at h2
      obtain ⟨h3, h4⟩ := h2; subst h3
      exact ⟨rfl, fun g hg => by cases hg⟩
    · injection h with h2
      rw [Prod.mk.injEq] at h2
      obtain ⟨h3, h4⟩ := h2; subst h3
      refine ⟨rfl, fun g hg => ?_⟩
      rw [htf] at hg
      injection hg with hg
      exact hg.symm
  next heq =>
    split at h
    · injection h with h2
      rw [Prod.mk.injEq] at h2
      obtain ⟨h3, h4⟩ := h2; subst h3
      exact ⟨rfl, fun g hg => by cases hg⟩
    · split at h
      next e heq2 => exact Except.noConfusion h
      next pt heq2 =>
        split at h
        · injection h with h2
          rw [Prod.mk.injEq] at h2
          obtain ⟨h3, h4⟩ := h2; subst h3
          exact ⟨rfl, fun g hg => by cases hg⟩
        · split at h
          next e heq3 => exact Except.noConfusion h
          next t1 heq3 =>
            split at h
            · injection h with h2
              rw [Prod.mk.injEq] at h2
              obtain ⟨h3, h4⟩ := h2; subst h3
              exact ⟨rfl, fun g hg => by cases hg⟩
            · split at h
              next e heq4 => exact Except.noConfusion h
              next t2 pluginFiles heq4 =>
                split at h
                next e heq5 => exact Except.noConfusion h
                next t3 heq5 =>
                  split at h
                  next e heq6 => exact Except.noConfusion h
                  next t4 heq6 =>
                    split at h
                    · injection h with h2
                      rw [Prod.mk.injEq] at h2
                      obtain ⟨h3, h4⟩ := h2; subst h3
                      exact ⟨rfl, fun g hg => by cases hg⟩
                    · split at h
                      · injection h with h2
                        rw [Prod.mk.injEq] at h2
                        obtain ⟨h3, h4⟩ := h2; subst h3
                        exact ⟨rfl, fun g hg => by cases hg⟩
                      · injection h with h2
                        rw [Prod.mk.injEq] at h2
                        obtain ⟨h3, h4⟩ := h2; subst h3
                        exact ⟨rfl, hlv t3 t4 heq6⟩

/-- C2: an unexpected exception in any phase while indexing a single file
does not propagate: `indexOne` and `indexOneWithPlugins` catch it, attach an
`InternalError` diagnostic to that file, and return a parsed file whose tree
is `EmptyTree` and whose file reference is the requested file.  (Both
functions take only the one file, so no other file is touched.) -/
theorem indexing_exception_isolated (opts : Options) (level : StrictLevel)
    (ph : IndexPhases) (file : FileRef) :
    (∀ e, indexOneUncaught opts level ph file = Except.error e →
        indexOne opts level ph file =
          (⟨Tree.emptyTree, file⟩, [⟨file, ErrorClass.InternalError⟩]))
    ∧ (∀ e, indexOneWithPluginsUncaught opts level ph file = Except.error e →
        indexOneWithPlugins opts level ph file =
          ((⟨Tree.emptyTree, file⟩, []), [⟨file, ErrorClass.InternalError⟩])) := by
  constructor <;> intro e h
  · unfold indexOne; rw [h]; rfl
  · unfold indexOneWithPlugins; rw [h]; rfl

/-- Concrete options used by the evaluation witnesses: no overrides, run all
phases, keep DSL passes. -/
def sampleOpts : Options :=
  { strictnessOverrides := [], forceMinStrict := StrictLevel.False,
    forceMaxStrict := StrictLevel.Strong, stopAfterPhase := Phase.INFERENCER,
    skipDSLPasses := false }

/-- Concrete phases whose parser throws, for the C2 witness. -/
def throwingPhases : IndexPhases :=
  { runParser := fun _ => Except.error ⟨"exception parsing file"⟩
  , runDesugar := fun f _ => Except.ok (Tree.node f 1)
  , pluginRun := fun f _ => Except.ok (Tree.node f 1, [])
  , runDSL := fun f _ => Except.ok (Tree.node f 1)
  , runLocalVars := fun f _ => Except.ok (Tree.node f 2)
  , cacheRead := fun _ => none }

/-- C2 (witness): indexing file 7 with a throwing parser yields the empty
tree for file 7 plus one `InternalError` diagnostic on file 7. -/
theorem indexing_exception_isolated_witness :
    indexOne sampleOpts StrictLevel.True throwingPhases 7 =
      (⟨Tree.emptyTree, 7⟩, [⟨7, ErrorClass.InternalError⟩]) :=
  (indexing_exception_isolated sampleOpts StrictLevel.True throwingPhases 7).1
    ⟨"exception parsing file"⟩ rfl

/-- C5: a parsed file produced by per-file indexing always carries the
requested file, and its tree's root loc (when the tree is not `EmptyTree`)
lies in that same file; on the cache path the implementation enforces that a
deserialized tree whose file reference differs from the requested file is
rejected (the `ENFORCE` throws). -/
theorem indexing_tree_file_invariant (opts : Options) (level : StrictLevel)
    (ph : IndexPhases) (file : FileRef) (hwf : PhasesWF ph file) :
    ((indexOne opts level ph file).fst.file = file
      ∧ treeFileOk file (indexOne opts level ph file).fst.tree)
    ∧ ((indexOneWithPlugins opts level ph file).fst.fst.file = file
      ∧ treeFileOk file (indexOneWithPlugins opts level ph file).fst.fst.tree)
    ∧ (∀ t, ph.cacheRead file = some t → treeFile t ≠ some file →
        fetchTreeFromCache ph file =
          Except.error ⟨"ENFORCE: cached tree loc file differs from requested file"⟩) := by
  obtain ⟨hdes, hplg, hdsl, hlv⟩ := hwf
  refine ⟨?_, ?_, ?_⟩
  · unfold indexOne
    cases hu : indexOneUncaught opts level ph file with
    | ok pf => exact indexOneUncaught_ok_inv opts level ph file hlv pf hu
    | error e => exact ⟨rfl, fun g hg => by cases hg⟩
  · unfold indexOneWithPlugins
    cases hu : indexOneWithPluginsUncaught opts level ph file with
    | ok r =>
      obtain ⟨pf, gens⟩ := r
      exact indexOneWithPluginsUncaught_ok_inv opts level ph file hlv pf gens hu
    | error e => exact ⟨rfl, fun g hg => by cases hg⟩
  · intro t hct hne
    unfold fetchTreeFromCache
    simp only [hct]
    rw [if_neg hne]

/-- Concrete well-behaved phases for the C5 witness. -/
def samplePhases : IndexPhases :=
  { runParser := fun _ => Except.ok 0
  , runDesugar := fun f _ => Except.ok (Tree.node f 1)
  , pluginRun := fun f _ => Except.ok (Tree.node f 1, [])
  , runDSL := fun f _ => Except.ok (Tree.node f 1)
  , runLocalVars := fun f _ => Except.ok (Tree.node f 2)
  , cacheRead := fun _ => none }

theorem samplePhasesWF (file : FileRef) : PhasesWF samplePhases file := by
  refine ⟨?_, ?_, ?_, ?_⟩
  · intro p t h; injection h with h; subst h
    intro g hg; injection hg with hg; exact hg.symm
  · intro t t2 gens h; injection h with h
    rw [Prod.mk.injEq] at h; obtain ⟨h1, h2⟩ := h; subst h1
    intro g hg; injection hg with hg; exact hg.symm
  · intro t t2 h; injection h with h; subst h
    intro g hg; injection hg with hg; exact hg.symm
  · intro t t2 h; injection h with h; subst h
    intro g hg; injection hg with hg; exact hg.symm

/-- C5 (witness): the invariant evaluated at file 5 with concrete phases; the
parsed file is for file 5 and its tree's root loc lies in file 5. -/
theorem indexing_tree_file_invariant_witness :
    (indexOne sampleOpts StrictLevel.True samplePhases 5).fst.file = 5
    ∧ (indexOne sampleOpts StrictLevel.True samplePhases 5).fst.tree = Tree.node 5 2 :=
  ⟨(indexing_tree_file_invariant sampleOpts StrictLevel.True samplePhases 5
      (samplePhasesWF 5)).1.1, rfl⟩

/-- `core::UniqueNameKind` (the constructors enumerated by `Name::showRaw` in
src/core/Names.cc lines 44..75). -/
inductive UniqueNameKind where
  | Parser
  | Desugar
  | Namer
  | MangleRename
  | Singleton
  | Overload
  | TypeVarName
  | PositionalArg
  | MangledKeywordArg
  | ResolverMissingClass
deriving DecidableEq, Repr

/-- `core::Name`: one of the three interned name variants (src/core/Names.cc;
`NameRef`s are plain ids into the table). -/
inductive Name where
  | utf8 (bytes : String)
  | unique (kind : UniqueNameKind) (num : Nat) (original : Nat)
  | cnst (original : Nat)
deriving DecidableEq, Repr

/-- The name table: insertion-ordered vector of names; a `NameRef` id is an
index into it. -/
abbrev NameTable := List Name

/-- Modelled from the spec: `GlobalState::enterNameUTF8` interns a spelling;
re-entering present bytes returns the existing id, otherwise the name is
appended. -/
def enterNameUTF8 (tbl : NameTable) (s : String) : NameTable × Nat :=
  match tbl.findIdx? (fun n => n == Name.utf8 s) with
  | some i => (tbl, i)
  | none => (tbl ++ [Name.utf8 s], tbl.length)

/-- Modelled from the spec: `GlobalState::enterNameConstant` wraps an already
interned name; the guard is the debug contract that `original` exists. -/
def enterNameConstant (tbl : NameTable) (original : Nat) : NameTable × Nat :=
  if original < tbl.length then
    match tbl.findIdx? (fun n => n == Name.cnst original) with
    | some i => (tbl, i)
    | none => (tbl ++ [Name.cnst original], tbl.length)
  else (tbl, 0)

/-- Modelled from the spec: `GlobalState::freshNameUnique` retrieves or
creates the unique derivation `(kind, original, num)` with `num > 0` and
`original` already interned. -/
def freshNameUnique (tbl : NameTable) (kind : UniqueNameKind) (original num : Nat) :
    NameTable × Nat :=
  if original < tbl.length ∧ 0 < num then
    match tbl.findIdx? (fun n => n == Name.unique kind num original) with
    | some i => (tbl, i)
    | none => (tbl ++ [Name.unique kind num original], tbl.length)
  else (tbl, 0)

/-- A name table reachable by the interning operations: every appended
`CONSTANT` or `UNIQUE` name wraps an `original` already in the table, and
`UNIQUE` names carry `num > 0`. -/
inductive NameTableWF : NameTable → Prop where
  | nil : NameTableWF []
  | utf8 (tbl : NameTable) (s : String) :
      NameTableWF tbl → NameTableWF (tbl ++ [Name.utf8 s])
  | unique (tbl : NameTable) (kind : UniqueNameKind) (num orig : Nat) :
      NameTableWF tbl → orig < tbl.length → 0 < num →
      NameTableWF (tbl ++ [Name.unique kind num orig])
  | cnst (tbl : NameTable) (orig : Nat) :
      NameTableWF tbl → orig < tbl.length →
      NameTableWF (tbl ++ [Name.cnst orig])

theorem enterNameUTF8_wf (tbl : NameTable) (s : String) (h : NameTableWF tbl) :
    NameTableWF (enterNameUTF8 tbl s).fst := by
  unfold enterNameUTF8
  split
  · exact h
  · exact NameTableWF.utf8 tbl s h

theorem enterNameConstant_wf (tbl : NameTable) (orig : Nat) (h : NameTableWF tbl) :
    NameTableWF (enterNameConstant tbl orig).fst := by
  unfold enterNameConstant
  split
  next hlt =>
    split
    · exact h
    · exact NameTableWF.cnst tbl orig h hlt
  next => exact h

theorem freshNameUnique_wf (tbl : NameTable) (kind : UniqueNameKind) (orig num : Nat)
    (h : NameTableWF tbl) : NameTableWF (freshNameUnique tbl kind orig num).fst := by
  unfold freshNameUnique
  split
  next hlt =>
    split
    · exact h
    · exact NameTableWF.unique tbl kind num orig h hlt.1 hlt.2
  next => exact h

/-- The per-name checks of `Name::sanityCheck` (src/core/Names.cc lines
143..169) that concern structure: `unique.original.id < self.id`,
`unique.num > 0`, `cnst.original.id < self.id` (the remaining `ENFORCE`s
re-enter the name and compare ids, which is the table-corruption check). -/
def checkNameAt (id : Nat) : Name → Bool
  | Name.unique _ num orig => decide (orig < id) && decide (0 < num)
  | Name.cnst orig => decide (orig < id)
  | Name.utf8 _ => true

/-- `Name::sanityCheck` run on the name stored at `id` (vacuously true when
`id` is out of range). -/
def nameSanityCheck (tbl : NameTable) (id : Nat) : Bool :=
  (tbl.get? id).elim true (checkNameAt id)

theorem nameTable_invariant_aux (tbl : NameTable) (hwf : NameTableWF tbl) :
    ∀ id k num orig,
      (tbl.get? id = some (Name.unique k num orig) → orig < id ∧ 0 < num)
      ∧ (tbl.get? id = some (Name.cnst orig) → orig < id) := by
  induction hwf with
  | nil =>
    intro id k num orig
    constructor <;> intro h <;> simp at h
  | utf8 tbl s hwf ih =>
    intro id k num orig
    rcases lt_trichotomy id tbl.length with hlt | heq | hgt
    · rw [List.get?_append hlt]
      exact ih id k num orig
    · subst heq
      rw [List.get?_concat_length]
      constructor <;> intro h <;> (injection h with h2; cases h2)
    · have hle : (tbl ++ [Name.utf8 s]).length ≤ id := by
        simp only [List.length_append, List.length_singleton]
        omega
      rw [List.get?_eq_none.mpr hle]
      constructor <;> intro h <;> cases h
  | unique tbl kind num0 orig0 hwf horig hnum ih =>
    intro id k num orig
    rcases lt_trichotomy id tbl.length with hlt | heq | hgt
    · rw [List.get?_append hlt]
      exact ih id k num orig
    · subst heq
      rw [List.get?_concat_length]
      constructor <;> intro h
      · injection h with h2
        injection h2 with hk hn ho
        subst hn; subst ho
        exact ⟨horig, hnum⟩
      · injection h with h2; cases h2
    · have hle : (tbl ++ [Name.unique kind num0 orig0]).length ≤ id := by
        simp only [List.length_append, List.length_singleton]
        omega
      rw [List.get?_eq_none.mpr hle]
      constructor <;> intro h <;> cases h
  | cnst tbl orig0 hwf horig ih =>
    intro id k num orig
    rcases lt_trichotomy id tbl.length with hlt | heq | hgt
    · rw [List.get?_append hlt]
      exact ih id k num orig
    · subst heq
      rw [List.get?_concat_length]
      constructor <;> intro h
      · injection h with h2; cases h2
      · injection h with h2
        injection h2 with ho
        subst ho
        exact horig
    · have hle : (tbl ++ [Name.cnst orig0]).length ≤ id := by
        simp only [List.length_append, List.length_singleton]
        omega
      rw [List.get?_eq_none.mpr hle]
      constructor <;> intro h <;> cases h

theorem nameSanityCheck_iff (tbl : NameTable) (id : Nat) :
    nameSanityCheck tbl id = true ↔
      ((∀ k num orig, tbl.get? id = some (Name.unique k num orig) → orig < id ∧ 0 < num)
        ∧ (∀ orig, tbl.get? id = some (Name.cnst orig) → orig < id)) := by
  unfold nameSanityCheck
  cases hget : tbl.get? id with
  | none => simp
  | some n =>
    cases n with
    | utf8 s => simp [checkNameAt]
    | unique k num orig =>
      simp only [Option.elim_some, checkNameAt, Bool.and_eq_true, decide_eq_true_eq]
      constructor
      · intro hp
        refine ⟨fun k2 num2 orig2 h2 => ?_, fun orig2 h2 => ?_⟩ <;> injection h2 with h3
        · injection h3 with hk hn ho; subst hn; subst ho; exact hp
        · cases h3
      · intro hp
        exact hp.1 k num orig rfl
    | cnst orig =>
      simp only [Option.elim_some, checkNameAt, decide_eq_true_eq]
      constructor
      · intro hp
        refine ⟨fun k2 num2 orig2 h2 => ?_, fun orig2 h2 => ?_⟩ <;> injection h2 with h3
        · cases h3
        · injection h3 with ho; subst ho; exact hp
      · intro hp
        exact hp.2 orig rfl

/-- C6: in a name table built by the interning operations, every stored name
with variant `UNIQUE` or `CONSTANT` has `original` id strictly smaller than
its own id, `UNIQUE` names have `num > 0`, and the per-name sanity check
(`Name::sanityCheck`) passes everywhere and asserts exactly this. -/
theorem name_original_id_smaller (tbl : NameTable) (hwf : NameTableWF tbl) (id : Nat) :
    (∀ k num orig, tbl.get? id = some (Name.unique k num orig) → orig < id ∧ 0 < num)
    ∧ (∀ orig, tbl.get? id = some (Name.cnst orig) → orig < id)
    ∧ nameSanityCheck tbl id = true
    ∧ (nameSanityCheck tbl id = true ↔
        ((∀ k num orig, tbl.get? id = some (Name.unique k num orig) → orig < id ∧ 0 < num)
          ∧ (∀ orig, tbl.get? id = some (Name.cnst orig) → orig < id))) := by
  have h1 : ∀ k num orig, tbl.get? id = some (Name.unique k num orig) → orig < id ∧ 0 < num :=
    fun k num orig h => (nameTable_invariant_aux tbl hwf id k num orig).1 h
  have h2 : ∀ orig, tbl.get? id = some (Name.cnst orig) → orig < id :=
    fun orig h => (nameTable_invariant_aux tbl hwf id UniqueNameKind.Parser 0 orig).2 h
  exact ⟨h1, h2, (nameSanityCheck_iff tbl id).mpr ⟨h1, h2⟩, nameSanityCheck_iff tbl id⟩

/-- A tiny concrete name table: a UTF8 name, the constant wrapping it, and a
mangle-rename derivation of the constant. -/
def sampleNameTable : NameTable :=
  [Name.utf8 "foo", Name.cnst 0, Name.unique UniqueNameKind.MangleRename 1 0]

theorem sampleNameTableWF : NameTableWF sampleNameTable := by
  refine NameTableWF.unique [Name.utf8 "foo", Name.cnst 0]
    UniqueNameKind.MangleRename 1 0 ?_ (by decide) (by decide)
  exact NameTableWF.cnst [Name.utf8 "foo"] 0
    (NameTableWF.utf8 [] "foo" NameTableWF.nil) (by decide)

/-- C6 (witness): the invariant and sanity check evaluated at id 2 of the
concrete table, whose entry is a UNIQUE name with original 0 and num 1. -/
theorem name_original_id_smaller_witness :
    sampleNameTable.get? 2 = some (Name.unique UniqueNameKind.MangleRename 1 0)
    ∧ nameSanityCheck sampleNameTable 2 = true :=
  ⟨rfl, (name_original_id_smaller sampleNameTable sampleNameTableWF 2).2.2.1⟩

/-- One `DeepCloneHistory` record: the forked global state and the last name
id it knew from its parent. -/
structure DeepCloneHistoryEntry where
  globalStateId : Int
  lastNameKnownByParentGlobalState : Nat
deriving DecidableEq, Repr

/-- The identity slice of a `GlobalState`: its id and deep-clone history. -/
structure GlobalStateIds where
  globalStateId : Int
  deepCloneHistory : List DeepCloneHistoryEntry
deriving DecidableEq, Repr

/-- `NameRefDebugCheck`: the owning-global-state id recorded when a `NameRef`
is constructed. -/
structure NameRefDebugCheck where
  globalStateId : Int
deriving DecidableEq, Repr

/-- The `NameRefDebugCheck` constructor (src/core/Names.cc lines 194..204):
record the creating global state's id, except that a ref to a name known from
a deep-clone ancestor records that ancestor's id (first history entry whose
`lastNameKnownByParentGlobalState` exceeds the name id). -/
def mkNameRefDebugCheck (gs : GlobalStateIds) (id : Nat) : NameRefDebugCheck :=
  { globalStateId :=
      ((gs.deepCloneHistory.find?
            (fun e => decide (id < e.lastNameKnownByParentGlobalState))).map
          (fun e => e.globalStateId)).getD gs.globalStateId }

/-- The id slice of a `GlobalSubstitution`: the destination global state and
the id map. -/
structure GlobalSubstitutionM where
  toGs : GlobalStateIds
  map : Nat → Nat

/-- `NameRefDebugCheck::check(const GlobalSubstitution &)` (src/core/Names.cc
lines 224..226): `ENFORCE(globalStateId != subst.toGlobalStateId)`; `true`
means the check passes. -/
def checkSubstitution (c : NameRefDebugCheck) (toGlobalStateId : Int) : Bool :=
  c.globalStateId != toGlobalStateId

/-- A `NameRef` with its debug payload. -/
structure NameRefM where
  id : Nat
  dbg : NameRefDebugCheck

/-- Modelled from the spec: applying a `GlobalSubstitution` to one `NameRef`
(the rewriting tree walk does this at each name): the debug check runs first
(`sanityCheckSubstitution`, a fatal contract violation in debug mode when it
fails), then the mapped ref is rebuilt in the destination global state, so
its debug info is recomputed there. -/
def substituteNameRef (subst : GlobalSubstitutionM) (r : NameRefM) :
    Except SorbetExn NameRefM :=
  if checkSubstitution r.dbg subst.toGs.globalStateId then
    Except.ok ⟨subst.map r.id, mkNameRefDebugCheck subst.toGs (subst.map r.id)⟩
  else Except.error ⟨"substituting a name twice!"⟩

/-- C7: the substitution sanity check fails exactly on a `NameRef` whose
recorded owning global-state id equals the substitution's destination
global-state id; consequently a ref freshly produced by the substitution
(when its new id is beyond every deep-clone-history threshold, so it records
the destination's own id) fails the same substitution's check when it is
applied a second time. -/
theorem substitution_single_use (subst : GlobalSubstitutionM) (r : NameRefM) :
    ((∃ v, substituteNameRef subst r = Except.error v) ↔
      r.dbg.globalStateId = subst.toGs.globalStateId)
    ∧ (∀ r2, substituteNameRef subst r = Except.ok r2 →
        subst.toGs.deepCloneHistory.find?
            (fun e => decide (subst.map r.id < e.lastNameKnownByParentGlobalState)) = none →
        ∃ v, substituteNameRef subst r2 = Except.error v) := by
  constructor
  · constructor
    · rintro ⟨v, hv⟩
      unfold substituteNameRef at hv
      split at hv
      next hch => exact Except.noConfusion hv
      next hch =>
        unfold checkSubstitution at hch
        simpa using hch
    · intro heq
      refine ⟨⟨"substituting a name twice!"⟩, ?_⟩
      have hc : ¬ (checkSubstitution r.dbg subst.toGs.globalStateId = true) := by
        unfold checkSubstitution
        simp [heq]
      unfold substituteNameRef
      rw [if_neg hc]
  · intro r2 hok hfind
    unfold substituteNameRef at hok
    split at hok
    next hch =>
      injection hok with h2
      subst h2
      refine ⟨⟨"substituting a name twice!"⟩, ?_⟩
      have hc : ¬ (checkSubstitution (mkNameRefDebugCheck subst.toGs (subst.map r.id))
          subst.toGs.globalStateId = true) := by
        unfold checkSubstitution mkNameRefDebugCheck
        rw [hfind]
        simp
      unfold substituteNameRef
      rw [if_neg hc]
    next hch => exact Except.noConfusion hok

/-- C7 (witness): a ref recorded as owned by global state 5 fails a check
against a substitution whose destination is global state 5. -/
theorem substitution_single_use_witness :
    ∃ v, substituteNameRef ⟨⟨5, []⟩, fun i => i⟩
        ⟨10, mkNameRefDebugCheck ⟨5, []⟩ 10⟩ = Except.error v :=
  (substitution_single_use ⟨⟨5, []⟩, fun i => i⟩
    ⟨10, mkNameRefDebugCheck ⟨5, []⟩ 10⟩).1.mpr rfl

/-- The class/module flag bits handled by `handleNamerDSL`. -/
structure ClassFlags where
  isFinal : Bool
  isAbstract : Bool
  isInterface : Bool
deriving DecidableEq, Repr

/-- `ast::ClassDefKind`. -/
inductive ClassDefKind where
  | Class
  | Module
deriving DecidableEq, Repr

/-- The send names `handleNamerDSL` compares `send->fun` against
(`core::Names::declareFinal/declareAbstract/declareInterface`); `other`
covers every other name. -/
inductive FunName where
  | declareFinal
  | declareAbstract
  | declareInterface
  | other (n : Nat)
deriving DecidableEq, Repr

/-- Result of the flag-setting part of `handleNamerDSL`: the updated flags of
the class symbol and of its singleton class, and the diagnostics emitted. -/
structure NamerDSLResult where
  klass : ClassFlags
  singleton : ClassFlags
  errors : List ErrorClass
deriving DecidableEq, Repr

/-- The `final!` / `abstract!` / `interface!` handling of `handleNamerDSL`
(src/namer/namer.cc lines 280..295): three sequential `if`s on `send->fun`;
`declareFinal` sets the final flag on the class and its singleton;
`declareInterface` or `declareAbstract` set the abstract flag on both;
`declareInterface` additionally sets the interface flag on the class symbol
and, when the definition is a `class`, emits `InterfaceClass`. -/
def handleNamerDSLFlags (kind : ClassDefKind) (fn : FunName)
    (klass singleton : ClassFlags) : NamerDSLResult :=
  let ks :=
    if fn = FunName.declareFinal then
      ({ klass with isFinal := true }, { singleton with isFinal := true })
    else (klass, singleton)
  let ks :=
    if fn = FunName.declareInterface ∨ fn = FunName.declareAbstract then
      ({ ks.1 with isAbstract := true }, { ks.2 with isAbstract := true })
    else ks
  if fn = FunName.declareInterface then
    { klass := { ks.1 with isInterface := true }, singleton := ks.2,
      errors := if kind = ClassDefKind.Class then [ErrorClass.InterfaceClass] else [] }
  else { klass := ks.1, singleton := ks.2, errors := [] }

/-- C8 (counterexample): `interface!` sets the interface flag on the class
symbol but not on its singleton class symbol, so the claim that the
corresponding flag lands on both is false for `interface!`. -/
theorem handleNamerDSL_interface_counterexample :
    (handleNamerDSLFlags ClassDefKind.Module FunName.declareInterface
        ⟨false, false, false⟩ ⟨false, false, false⟩).klass.isInterface = true
    ∧ (handleNamerDSLFlags ClassDefKind.Module FunName.declareInterface
        ⟨false, false, false⟩ ⟨false, false, false⟩).singleton.isInterface = false := by
  decide

/-- C8 (amended): `final!` sets the final flag on both the class and its
singleton; `abstract!` sets the abstract flag on both; `interface!` sets the
abstract flag on both but the interface flag on the class symbol only; and
`interface!` inside a `class` (not a `module`) additionally emits exactly one
`InterfaceClass` diagnostic. -/
theorem handleNamerDSL_flags (kind : ClassDefKind) (k s : ClassFlags) :
    handleNamerDSLFlags kind FunName.declareFinal k s =
      ⟨{ k with isFinal := true }, { s with isFinal := true }, []⟩
    ∧ handleNamerDSLFlags kind FunName.declareAbstract k s =
      ⟨{ k with isAbstract := true }, { s with isAbstract := true }, []⟩
    ∧ handleNamerDSLFlags kind FunName.declareInterface k s =
      ⟨{ k with isAbstract := true, isInterface := true }, { s with isAbstract := true },
        if kind = ClassDefKind.Class then [ErrorClass.InterfaceClass] else []⟩ := by
  refine ⟨?_, ?_, ?_⟩ <;> simp [handleNamerDSLFlags]

/-- Symbol ids: indices into the symbol table. -/
abbrev SymbolId := Nat

/-- A symbol's name: either a plain `NameRef` (by id) or a
`freshNameUnique(MangleRename, original, num)` name produced by
`mangleRenameSymbol`. -/
inductive SymName where
  | plain (n : Nat)
  | mangleRenamed (original : Nat) (num : Nat)
deriving DecidableEq, Repr

/-- A method argument symbol's name, as entered by `arg2Symbol`
(src/namer/namer.cc lines 76..111): keyword args use the local's name, block
args use `core::Names::blkArg()`, positional args use
`freshNameUnique(PositionalArg, Names::arg(), pos + 1)`. -/
inductive ArgSymName where
  | utf8 (n : Nat)
  | blkArg
  | positionalArg (num : Nat)
deriving DecidableEq, Repr

/-- The slice of `core::ArgInfo` that `paramsMatch` reads. -/
structure ArgInfo where
  name : ArgSymName
  isKeyword : Bool
  isBlock : Bool
  isRepeated : Bool
deriving DecidableEq, Repr

/-- `ast::ParsedArg` as produced by `ArgParsing::parseArgs`. -/
structure ParsedArg where
  localName : Nat
  keyword : Bool
  block : Bool
  repeated : Bool
  shadow : Bool
  hasDefault : Bool
deriving DecidableEq, Repr

/-- The slice of `core::Symbol` the method-redefinition path reads: name,
owner, `declLoc` (as an opaque location id), argument list, and the two bits
`isIntrinsic` inspects. -/
structure Symbol where
  name : SymName
  owner : SymbolId
  declLoc : Nat
  args : List ArgInfo
  intrinsic : Bool
  hasResultType : Bool
deriving DecidableEq, Repr

/-- The symbol table: a symbol's id is its index. -/
abbrev SymbolTable := List Symbol

/-- The member test `findMemberNoDealias` uses: same owner, same (plain)
name.  A mangle-renamed symbol no longer matches its original name. -/
def memberPred (owner : SymbolId) (name : Nat) (s : Symbol) : Bool :=
  s.owner == owner && s.name == SymName.plain name

def findMemberAux (owner : SymbolId) (name : Nat) : Nat → List Symbol → Option (Nat × Symbol)
  | _, [] => none
  | i, s :: rest =>
      if memberPred owner name s then some (i, s)
      else findMemberAux owner name (i + 1) rest

/-- Modelled from the spec: `Symbol::findMemberNoDealias` looks the name up
among the owner's members; here the first table entry with that owner and
name. -/
def findMemberNoDealias (st : SymbolTable) (owner : SymbolId) (name : Nat) :
    Option (Nat × Symbol) :=
  findMemberAux owner name 0 st

/-- The fresh number `mangleRenameSymbol` picks: one past the mangle-renames
already recorded for this original name. -/
def freshMangleNum (st : SymbolTable) (orig : Nat) : Nat :=
  1 + st.countP (fun s =>
    match s.name with
    | SymName.mangleRenamed o _ => o == orig
    | _ => false)

/-- Modelled from the spec: `GlobalState::mangleRenameSymbol` gives the
symbol a fresh `UNIQUE(MangleRename, name, num)` name so lookups by the
original name no longer reach it, while the symbol itself stays at its id. -/
def mangleRenameSymbol (st : SymbolTable) (id : SymbolId) (name : Nat) : SymbolTable :=
  (st[id]?).elim st
    (fun sym => st.set id { sym with name := SymName.mangleRenamed name (freshMangleNum st name) })

/-- Modelled from the spec: `GlobalState::enterMethodSymbol` returns the
existing member for `(owner, name)` when present, otherwise appends a fresh
method symbol with that name, owner and `declLoc`. -/
def enterMethodSymbol (st : SymbolTable) (loc : Nat) (owner : SymbolId) (name : Nat) :
    SymbolTable × SymbolId :=
  (findMemberNoDealias st owner name).elim
    (st ++ [{ name := SymName.plain name, owner := owner, declLoc := loc, args := [],
              intrinsic := false, hasResultType := false }], st.length)
    (fun found => (st, found.fst))

/-- `arg2Symbol`'s name choice for the argument at overall position `pos`. -/
def toArgInfo (pos : Nat) (pa : ParsedArg) : ArgInfo :=
  { name :=
      if pa.keyword then ArgSymName.utf8 pa.localName
      else if pa.block then ArgSymName.blkArg
      else ArgSymName.positionalArg (pos + 1)
  , isKeyword := pa.keyword
  , isBlock := pa.block
  , isRepeated := pa.repeated }

/-- `fillInArgs` + `arg2Symbol` (src/namer/namer.cc lines 375..413) acting on
the owner's argument list: shadow args produce no argument symbol; an arg
whose position is below the current argument count only has its loc
overwritten; otherwise a fresh argument symbol is appended. -/
def fillInArgsSyms (old : List ArgInfo) (parsed : List ParsedArg) : List ArgInfo :=
  (parsed.enum.filter (fun p => !p.2.shadow)).foldl
    (fun acc p => if p.1 < acc.length then acc else acc ++ [toArgInfo p.1 p.2]) old

/-- `NameInserter::isIntrinsic` (src/namer/namer.cc lines 474..477): an
intrinsic stub has an intrinsic pointer and no result type. -/
def isIntrinsic (sym : Symbol) : Bool :=
  sym.intrinsic && !sym.hasResultType

/-- The per-argument loop of `paramsMatch` (src/namer/namer.cc lines
501..540): the first mismatching attribute (keyword, block, repeated, or a
keyword arg's name) emits one `RedefinitionOfMethod` error and stops. -/
def paramsMatchLoop (symArgs : List ArgInfo) (parsedArgs : List ParsedArg) : Bool × Nat :=
  match symArgs, parsedArgs with
  | sa :: sas, pa :: pas =>
    if sa.isKeyword ≠ pa.keyword then (false, 1)
    else if sa.isBlock ≠ pa.block then (false, 1)
    else if sa.isRepeated ≠ pa.repeated then (false, 1)
    else if sa.isKeyword ∧ sa.name ≠ ArgSymName.utf8 pa.localName then (false, 1)
    else paramsMatchLoop sas pas
  | _, _ => (true, 0)

/-- `NameInserter::paramsMatch` (src/namer/namer.cc lines 479..543): a
differing argument count emits one `RedefinitionOfMethod` error and fails;
otherwise the arguments are compared pairwise.  Returns whether the shapes
match and how many errors were emitted.  (The `dealias` at entry is the
identity here: the modelled tables contain no method aliases.) -/
def paramsMatch (sym : Symbol) (parsedArgs : List ParsedArg) : Bool × Nat :=
  if sym.args.length ≠ parsedArgs.length then (false, 1)
  else paramsMatchLoop sym.args parsedArgs

/-- The `ast::MethodDef` fields the namer reads: name, `declLoc`, parsed
arguments. -/
structure MethodDefNode where
  name : Nat
  declLoc : Nat
  args : List ParsedArg
deriving DecidableEq, Repr

/-- Result of naming one method definition: the updated symbol table, the
symbol the definition now owns, and the diagnostics emitted. -/
structure MDefResult where
  st : SymbolTable
  symbol : SymbolId
  errors : List ErrorClass
deriving Repr

/-- Overwrite the entered symbol's arguments via `fillInArgs`. -/
def setArgsOn (st : SymbolTable) (id : SymbolId) (parsed : List ParsedArg) : SymbolTable :=
  (st[id]?).elim st (fun sym => st.set id { sym with args := fillInArgsSyms sym.args parsed })

/-- `NameInserter::preTransformMethodDef` (src/namer/namer.cc lines 545..581)
for an already-determined owner: look up the existing member; reuse it when
the `declLoc` is unchanged (reparse); keep it when it is an intrinsic stub or
the argument shapes match; otherwise mangle-rename it (each `paramsMatch`
error is a `RedefinitionOfMethod`).  In every case `enterMethodSymbol` then
makes the definition's symbol own the name and `fillInArgs` fills its
arguments. -/
def preTransformMethodDef (st : SymbolTable) (owner : SymbolId) (m : MethodDefNode) :
    MDefResult :=
  (findMemberNoDealias st owner m.name).elim
    (let entered := enterMethodSymbol st m.declLoc owner m.name
     ⟨setArgsOn entered.fst entered.snd m.args, entered.snd, []⟩)
    (fun found =>
      let symId := found.fst
      let sym := found.snd
      if m.declLoc = sym.declLoc then
        ⟨setArgsOn st symId m.args, symId, []⟩
      else if isIntrinsic sym || (paramsMatch sym m.args).fst then
        let entered := enterMethodSymbol st m.declLoc owner m.name
        ⟨setArgsOn entered.fst entered.snd m.args, entered.snd, []⟩
      else
        let errs := List.replicate (paramsMatch sym m.args).snd ErrorClass.RedefinitionOfMethod
        let st2 := mangleRenameSymbol st symId m.name
        let entered := enterMethodSymbol st2 m.declLoc owner m.name
        ⟨setArgsOn entered.fst entered.snd m.args, entered.snd, errs⟩)

theorem paramsMatchLoop_cases (sas : List ArgInfo) :
    ∀ pas, paramsMatchLoop sas pas = (true, 0) ∨ paramsMatchLoop sas pas = (false, 1) := by
  induction sas with
  | nil => intro pas; cases pas <;> exact Or.inl rfl
  | cons sa sas ih =>
    intro pas
    cases pas with
    | nil => exact Or.inl rfl
    | cons pa pas =>
      unfold paramsMatchLoop
      split
      · exact Or.inr rfl
      · split
        · exact Or.inr rfl
        · split
          · exact Or.inr rfl
          · split
            · exact Or.inr rfl
            · exact ih pas

theorem paramsMatch_false_snd (sym : Symbol) (args : List ParsedArg)
    (h : (paramsMatch sym args).fst = false) : (paramsMatch sym args).snd = 1 := by
  unfold paramsMatch at h ⊢
  by_cases hlen : sym.args.length ≠ args.length
  · rw [if_pos hlen]
  · rw [if_neg hlen] at h ⊢
    rcases paramsMatchLoop_cases sym.args args with hc | hc
    · rw [hc] at h; exact Bool.noConfusion h
    · rw [hc]

theorem findMemberAux_eq_none (owner : SymbolId) (name : Nat) (l : List Symbol)
    (h : ∀ s ∈ l, memberPred owner name s = false) :
    ∀ k, findMemberAux owner name k l = none := by
  induction l with
  | nil => intro k; rfl
  | cons s rest ih =>
    intro k
    unfold findMemberAux
    rw [if_neg (by rw [h s (List.mem_cons_self s rest)]; exact Bool.false_ne_true)]
    exact ih (fun s2 hs2 => h s2 (List.mem_cons_of_mem s hs2)) (k + 1)

theorem findMemberAux_append_single (owner : SymbolId) (name : Nat) (l : List Symbol)
    (x : Symbol) (hl : ∀ s ∈ l, memberPred owner name s = false)
    (hx : memberPred owner name x = true) :
    ∀ k, findMemberAux owner name k (l ++ [x]) = some (k + l.length, x) := by
  induction l with
  | nil =>
    intro k
    show findMemberAux owner name k [x] = some (k + List.length [], x)
    unfold findMemberAux
    rw [if_pos hx]
    simp
  | cons s rest ih =>
    intro k
    show findMemberAux owner name k (s :: (rest ++ [x])) = some (k + (s :: rest).length, x)
    unfold findMemberAux
    rw [if_neg (by rw [hl s (List.mem_cons_self s rest)]; exact Bool.false_ne_true)]
    rw [ih (fun s2 hs2 => hl s2 (List.mem_cons_of_mem s hs2)) (k + 1)]
    have heq : k + 1 + rest.length = k + (s :: rest).length := by
      simp only [List.length_cons]
      omega
    rw [heq]

theorem findMemberAux_some (owner : SymbolId) (name : Nat) (l : List Symbol) :
    ∀ k i s, findMemberAux owner name k l = some (i, s) →
      k ≤ i ∧ l[i - k]? = some s ∧ memberPred owner name s = true := by
  induction l with
  | nil => intro k i s h; cases h
  | cons hd rest ih =>
    intro k i s h
    unfold findMemberAux at h
    split at h
    next hp =>
      injection h with h2
      rw [Prod.mk.injEq] at h2
      obtain ⟨h3, h4⟩ := h2
      subst h3; subst h4
      refine ⟨Nat.le_refl k, ?_, hp⟩
      simp
    next hp =>
      obtain ⟨hk, hg, hp2⟩ := ih (k + 1) i s h
      refine ⟨by omega, ?_, hp2⟩
      have heq : i - k = (i - (k + 1)) + 1 := by omega
      rw [heq]
      simpa using hg

theorem list_getElem?_set_self {α : Type _} (l : List α) :
    ∀ i (a : α), i < l.length → (l.set i a)[i]? = some a := by
  induction l with
  | nil => intro i a h; cases h
  | cons hd tl ih =>
    intro i a h
    cases i with
    | zero => simp
    | succ n => simpa using ih n a (by simpa using h)

theorem list_getElem?_set_ne {α : Type _} (l : List α) :
    ∀ i j (a : α), i ≠ j → (l.set i a)[j]? = l[j]? := by
  induction l with
  | nil => intro i j a h; rfl
  | cons hd tl ih =>
    intro i j a h
    cases i with
    | zero =>
      cases j with
      | zero => exact absurd rfl h
      | succ n => simp
    | succ ii =>
      cases j with
      | zero => simp
      | succ n => simpa using ih ii n a (fun hc => h (by rw [hc]))

theorem list_set_append_length {α : Type _} (l : List α) (x y : α) :
    (l ++ [x]).set l.length y = l ++ [y] := by
  induction l with
  | nil => rfl
  | cons hd tl ih =>
    show hd :: ((tl ++ [x]).set tl.length y) = hd :: (tl ++ [y])
    rw [ih]

/-- C1: when a method is redefined under the same owner at a different
declaration loc, with the prior symbol not an intrinsic stub and the
argument shapes not matching (`paramsMatch` fails, e.g. a different
argument count), the namer emits exactly one `RedefinitionOfMethod`
diagnostic, mangle-renames the prior symbol (it keeps its id, its name
becomes the fresh MangleRename unique name), and enters a fresh method
symbol under the original name, which the member lookup now resolves to:
the second definition owns the name. -/
theorem method_redefinition (st : SymbolTable) (owner : SymbolId) (m : MethodDefNode)
    (symId : SymbolId) (sym : Symbol)
    (hfind : findMemberNoDealias st owner m.name = some (symId, sym))
    (hloc : ¬ m.declLoc = sym.declLoc)
    (hintr : isIntrinsic sym = false)
    (hmatch : (paramsMatch sym m.args).fst = false)
    (huniq : ∀ j s, st[j]? = some s → memberPred owner m.name s = true → j = symId) :
    (preTransformMethodDef st owner m).errors = [ErrorClass.RedefinitionOfMethod]
    ∧ (preTransformMethodDef st owner m).symbol = st.length
    ∧ ((preTransformMethodDef st owner m).st[symId]?).map Symbol.name =
        some (SymName.mangleRenamed m.name (freshMangleNum st m.name))
    ∧ (preTransformMethodDef st owner m).st[st.length]? =
        some { name := SymName.plain m.name, owner := owner, declLoc := m.declLoc,
               args := fillInArgsSyms [] m.args, intrinsic := false, hasResultType := false }
    ∧ ((findMemberNoDealias (preTransformMethodDef st owner m).st owner m.name).map
        Prod.fst) = some st.length := by
  obtain ⟨-, hget0, hpred⟩ := findMemberAux_some owner m.name st 0 symId sym hfind
  rw [Nat.sub_zero] at hget0
  have hsymlt : symId < st.length := by
    rcases List.getElem?_eq_some_iff.mp hget0 with ⟨hlt, -⟩
    exact hlt
  have hst2 : mangleRenameSymbol st symId m.name =
      st.set symId { sym with name := SymName.mangleRenamed m.name (freshMangleNum st m.name) } := by
    unfold mangleRenameSymbol
    rw [hget0]
    rfl
  have hall2 : ∀ s2 ∈ st.set symId
      { sym with name := SymName.mangleRenamed m.name (freshMangleNum st m.name) },
      memberPred owner m.name s2 = false := by
    intro s2 hs2
    obtain ⟨j, hj⟩ := List.mem_iff_getElem?.mp hs2
    by_cases hji : j = symId
    · subst hji
      rw [list_getElem?_set_self st j _ hsymlt] at hj
      injection hj with hj2
      subst hj2
      simp [memberPred]
    · rw [list_getElem?_set_ne st symId j _ (fun hc => hji hc.symm)] at hj
      rw [Bool.eq_false_iff]
      intro hp
      exact hji (huniq j s2 hj hp)
  have hfind2 : findMemberNoDealias
      (st.set symId { sym with name := SymName.mangleRenamed m.name (freshMangleNum st m.name) })
      owner m.name = none :=
    findMemberAux_eq_none owner m.name _ hall2 0
  have hlenset : (st.set symId
      { sym with name := SymName.mangleRenamed m.name (freshMangleNum st m.name) }).length
      = st.length := List.length_set st symId _
  have hent : enterMethodSymbol
      (st.set symId { sym with name := SymName.mangleRenamed m.name (freshMangleNum st m.name) })
      m.declLoc owner m.name =
      (st.set symId { sym with name := SymName.mangleRenamed m.name (freshMangleNum st m.name) }
        ++ [{ name := SymName.plain m.name, owner := owner, declLoc := m.declLoc, args := [],
              intrinsic := false, hasResultType := false }], st.length) := by
    unfold enterMethodSymbol
    rw [hfind2]
    simp only [Option.elim_none]
    rw [hlenset]
  have hgetfresh : (st.set symId
      { sym with name := SymName.mangleRenamed m.name (freshMangleNum st m.name) }
      ++ [{ name := SymName.plain m.name, owner := owner, declLoc := m.declLoc, args := [],
            intrinsic := false, hasResultType := false }])[st.length]? =
      some { name := SymName.plain m.name, owner := owner, declLoc := m.declLoc, args := [],
             intrinsic := false, hasResultType := false } := by
    rw [← hlenset]
    exact List.getElem?_concat_length _ _
  have hsetargs : setArgsOn
      (st.set symId { sym with name := SymName.mangleRenamed m.name (freshMangleNum st m.name) }
        ++ [{ name := SymName.plain m.name, owner := owner, declLoc := m.declLoc, args := [],
              intrinsic := false, hasResultType := false }]) st.length m.args =
      st.set symId { sym with name := SymName.mangleRenamed m.name (freshMangleNum st m.name) }
        ++ [{ name := SymName.plain m.name, owner := owner, declLoc := m.declLoc,
              args := fillInArgsSyms [] m.args, intrinsic := false, hasResultType := false }] := by
    unfold setArgsOn
    rw [hgetfresh]
    simp only [Option.elim_some]
    rw [← hlenset, list_set_append_length]
  have hstep : preTransformMethodDef st owner m =
      ⟨st.set symId { sym with name := SymName.mangleRenamed m.name (freshMangleNum st m.name) }
        ++ [{ name := SymName.plain m.name, owner := owner, declLoc := m.declLoc,
              args := fillInArgsSyms [] m.args, intrinsic := false, hasResultType := false }],
        st.length,
        List.replicate (paramsMatch sym m.args).snd ErrorClass.RedefinitionOfMethod⟩ := by
    unfold preTransformMethodDef
    rw [hfind]
    simp only [Option.elim_some]
    rw [if_neg hloc]
    rw [if_neg (by rw [hintr, hmatch]; exact Bool.false_ne_true)]
    rw [hst2, hent]
    exact congrArg (fun t => MDefResult.mk t st.length _) hsetargs
  refine ⟨?_, ?_, ?_, ?_, ?_⟩
  · rw [hstep]
    show List.replicate (paramsMatch sym m.args).snd ErrorClass.RedefinitionOfMethod =
      [ErrorClass.RedefinitionOfMethod]
    rw [paramsMatch_false_snd sym m.args hmatch]
    rfl
  · rw [hstep]
  · rw [hstep]
    show ((st.set symId { sym with name := SymName.mangleRenamed m.name (freshMangleNum st m.name) }
        ++ [_])[symId]?).map Symbol.name = _
    rw [List.getElem?_append_left (by rw [hlenset]; exact hsymlt),
      list_getElem?_set_self st symId _ hsymlt]
    rfl
  · rw [hstep]
    show (st.set symId { sym with name := SymName.mangleRenamed m.name (freshMangleNum st m.name) }
        ++ [_])[st.length]? = _
    rw [← hlenset]
    exact List.getElem?_concat_length _ _
  · rw [hstep]
    show (findMemberNoDealias
        (st.set symId { sym with name := SymName.mangleRenamed m.name (freshMangleNum st m.name) }
          ++ [{ name := SymName.plain m.name, owner := owner, declLoc := m.declLoc,
                args := fillInArgsSyms [] m.args, intrinsic := false, hasResultType := false }])
        owner m.name).map Prod.fst = some st.length
    unfold findMemberNoDealias
    rw [findMemberAux_append_single owner m.name _ _ hall2 (by simp [memberPred]) 0]
    rw [Nat.zero_add, hlenset]
    rfl

/-- The prior `bar(x)` method symbol: one positional arg and the block arg. -/
def barPriorSym : Symbol :=
  { name := SymName.plain 1, owner := 0, declLoc := 100,
    args := [⟨ArgSymName.positionalArg 1, false, false, false⟩,
             ⟨ArgSymName.blkArg, false, true, false⟩],
    intrinsic := false, hasResultType := false }

/-- The owner class symbol of the concrete redefinition scenario. -/
def ownerClassSym : Symbol :=
  { name := SymName.plain 0, owner := 0, declLoc := 0, args := [],
    intrinsic := false, hasResultType := false }

/-- The redefining `def bar(x, y)` (desugared, so with a trailing block arg)
at a new declaration loc. -/
def barRedef : MethodDefNode :=
  { name := 1, declLoc := 200,
    args := [⟨2, false, false, false, false, false⟩,
             ⟨3, false, false, false, false, false⟩,
             ⟨4, false, true, false, false, false⟩] }

/-- C1 (witness): redefining `bar` with a different arity emits exactly one
`RedefinitionOfMethod`, the new definition gets the fresh symbol id 2, and
the lookup of `bar` under the owner now resolves to it. -/
theorem method_redefinition_witness :
    (preTransformMethodDef [ownerClassSym, barPriorSym] 0 barRedef).errors =
        [ErrorClass.RedefinitionOfMethod]
    ∧ (preTransformMethodDef [ownerClassSym, barPriorSym] 0 barRedef).symbol = 2
    ∧ ((findMemberNoDealias (preTransformMethodDef [ownerClassSym, barPriorSym] 0 barRedef).st
          0 1).map Prod.fst) = some 2 := by
  have h := method_redefinition [ownerClassSym, barPriorSym] 0 barRedef 1 barPriorSym rfl
    (by decide) rfl rfl ?_
  · exact ⟨h.1, h.2.1, h.2.2.2.2⟩
  · intro j s hj hp
    match j with
    | 0 =>
      injection hj with hj2
      subst hj2
      exact absurd hp (by decide)
    | 1 => rfl
    | n + 2 => exact Option.noConfusion hj

/-- The environment the indexing coordinator runs in: the options, the
`runningUnderAutogen` bit of the global state, the file table (each
`FileRef`'s path, sigil and on-disk presence), the per-file phase oracles,
the `FileRef` that `gs->enterFile` assigns to each plugin-generated file, and
the name-substitution tree rewrite (`ast::Substitute::run`), which replaces
only `NameRef`s and therefore leaves the file of every loc unchanged. -/
structure IndexEnv where
  opts : Options
  runningUnderAutogen : Bool
  fileData : FileRef → FileData
  phases : IndexPhases
  enterGenFile : GeneratedFile → FileRef
  substTree : Tree → Tree

/-- `readFileWithStrictnessOverrides` (src/main/pipeline/pipeline.cc lines
427..471): read the file (a missing file keeps an empty source and gets a
`FileNotFound` diagnostic, so that every input file still maps to one output
tree), then decide and record its strict level. -/
def readFileWithStrictnessOverrides (env : IndexEnv) (file : FileRef) :
    StrictLevel × List Diag :=
  let fd := env.fileData file
  let decided := decideStrictLevel env.opts env.runningUnderAutogen fd
  (decided.fst,
    (if fd.found then ([] : List Diag) else [⟨file, ErrorClass.FileNotFound⟩])
      ++ decided.snd.map (fun e => ⟨file, e⟩))

/-- Indexing one plugin-generated file (src/main/pipeline/pipeline.cc lines
655..657 on the inline path, 594..595 on the worker path): decide its strict
level, then `indexOne`. -/
def indexPluginEntry (env : IndexEnv) (file : FileRef) : ParsedFile × List Diag :=
  let decided := decideStrictLevel env.opts env.runningUnderAutogen (env.fileData file)
  let r := indexOne env.opts decided.fst env.phases file
  (r.fst, decided.snd.map (fun e => ⟨file, e⟩) ++ r.snd)

/-- The plugin-generated files the run of `indexOneWithPlugins` for `file`
emits. -/
def gensOfFile (env : IndexEnv) (file : FileRef) : List GeneratedFile :=
  (indexOneWithPlugins env.opts (readFileWithStrictnessOverrides env file).fst
    env.phases file).fst.snd

/-- The `FileRef`s those plugin-generated files receive when entered. -/
def pluginRefsOfFile (env : IndexEnv) (file : FileRef) : List FileRef :=
  (gensOfFile env file).map env.enterGenFile

/-- All plugin-generated `FileRef`s of a run over `files`, in file order. -/
def pluginRefsOf (env : IndexEnv) (files : List FileRef) : List FileRef :=
  (files.map (pluginRefsOfFile env)).join

/-- The inline (`files.size() < 3`) path of `index` (src/main/pipeline/
pipeline.cc lines 642..661): for each file, read it, run
`indexOneWithPlugins`, then enter and index each plugin-generated file
immediately after it. -/
def indexInline (env : IndexEnv) : List FileRef → List ParsedFile × List Diag
  | [] => ([], [])
  | file :: files =>
    let rd := readFileWithStrictnessOverrides env file
    let r := indexOneWithPlugins env.opts rd.fst env.phases file
    let pluginOuts := r.fst.snd.map (fun gf => indexPluginEntry env (env.enterGenFile gf))
    let rest := indexInline env files
    (r.fst.fst :: (pluginOuts.map Prod.fst ++ rest.fst),
     rd.snd ++ r.snd ++ (pluginOuts.map Prod.snd).join ++ rest.snd)

/-- One worker of `indexSuppliedFiles` (src/main/pipeline/pipeline.cc lines
538..564) processing its batch of files: read and index each file,
collecting trees and plugin-generated files. -/
def indexWorkerBatch (env : IndexEnv) : List FileRef → List ParsedFile × List GeneratedFile × List Diag
  | [] => ([], [], [])
  | file :: files =>
    let rd := readFileWithStrictnessOverrides env file
    let r := indexOneWithPlugins env.opts rd.fst env.phases file
    let rest := indexWorkerBatch env files
    (r.fst.fst :: rest.fst, r.fst.snd ++ rest.snd.fst, rd.snd ++ r.snd ++ rest.snd.snd)

/-- The substitution step of `mergeIndexResults` (src/main/pipeline/
pipeline.cc lines 502..513): rewrite each tree of a non-canonical batch
through the `GlobalSubstitution`, skipping trees of cache-hit files. -/
def substituteBatch (env : IndexEnv) (trees : List ParsedFile) : List ParsedFile :=
  trees.map (fun t =>
    if env.phases.cacheRead t.file ≠ none then t
    else { t with tree := env.substTree t.tree })

/-- `mergeIndexResults` over the batches after the canonical first one:
their trees are substituted into the canonical global state and appended. -/
def indexRestBatches (env : IndexEnv) : List (List FileRef) → List ParsedFile × List GeneratedFile × List Diag
  | [] => ([], [], [])
  | b :: bs =>
    let w := indexWorkerBatch env b
    let rest := indexRestBatches env bs
    (substituteBatch env w.fst ++ rest.fst, w.snd.fst ++ rest.snd.fst,
     w.snd.snd ++ rest.snd.snd)

/-- `indexSuppliedFiles` + `mergeIndexResults` (src/main/pipeline/pipeline.cc
lines 484..567): the first arriving batch becomes canonical and is kept
as-is; every later batch is substituted and appended.  `batches` is the
worker partition in merge-arrival order. -/
def indexSuppliedFilesModel (env : IndexEnv) (batches : List (List FileRef)) :
    List ParsedFile × List GeneratedFile × List Diag :=
  match batches with
  | [] => ([], [], [])
  | b :: bs =>
    let first := indexWorkerBatch env b
    let rest := indexRestBatches env bs
    (first.fst ++ rest.fst, first.snd.fst ++ rest.snd.fst, first.snd.snd ++ rest.snd.snd)

/-- One worker of `indexPluginFiles` (src/main/pipeline/pipeline.cc lines
585..605): index each entered plugin file with `indexOne` after deciding its
strict level. -/
def pluginWorkerBatch (env : IndexEnv) : List FileRef → List ParsedFile × List Diag
  | [] => ([], [])
  | file :: files =>
    let e := indexPluginEntry env file
    let rest := pluginWorkerBatch env files
    (e.fst :: rest.fst, e.snd ++ rest.snd)

/-- The merge over the plugin-pass batches after the first. -/
def pluginRestBatches (env : IndexEnv) : List (List FileRef) → List ParsedFile × List Diag
  | [] => ([], [])
  | b :: bs =>
    let w := pluginWorkerBatch env b
    let rest := pluginRestBatches env bs
    (substituteBatch env w.fst ++ rest.fst, w.snd ++ rest.snd)

/-- `mergeIndexResults` of the plugin pass. -/
def pluginMergeModel (env : IndexEnv) (pbatches : List (List FileRef)) :
    List ParsedFile × List Diag :=
  match pbatches with
  | [] => ([], [])
  | b :: bs =>
    let first := pluginWorkerBatch env b
    let rest := pluginRestBatches env bs
    (first.fst ++ rest.fst, first.snd ++ rest.snd)

/-- `indexPluginFiles` (src/main/pipeline/pipeline.cc lines 569..628): when
the first pass produced no plugin-generated files, or the plugin pass
produced no trees, the first pass is returned unchanged; otherwise every
first-pass tree is substituted into the plugin pass's global state and the
plugin trees are appended. -/
def indexPluginFilesModel (env : IndexEnv)
    (firstPass : List ParsedFile × List GeneratedFile × List Diag)
    (pbatches : List (List FileRef)) : List ParsedFile × List Diag :=
  if firstPass.snd.fst = [] then (firstPass.fst, firstPass.snd.snd)
  else
    let indexedPluginFiles := pluginMergeModel env pbatches
    if indexedPluginFiles.fst = [] then
      (firstPass.fst, firstPass.snd.snd ++ indexedPluginFiles.snd)
    else
      (firstPass.fst.map (fun t => { t with tree := env.substTree t.tree })
          ++ indexedPluginFiles.fst,
        firstPass.snd.snd ++ indexedPluginFiles.snd)

/-- `insert` of the final sort by `FileRef`
(`fast_sort(ret, a.file < b.file)`, src/main/pipeline/pipeline.cc line
669). -/
def insertByFile (x : ParsedFile) : List ParsedFile → List ParsedFile
  | [] => [x]
  | y :: ys => if x.file < y.file then x :: y :: ys else y :: insertByFile x ys

/-- The final sort of `index` by ascending `FileRef`. -/
def sortByFile : List ParsedFile → List ParsedFile
  | [] => []
  | x :: xs => insertByFile x (sortByFile xs)

/-- The two branches of `index` before the final sort. -/
def indexCore (env : IndexEnv) (files : List FileRef)
    (batches pbatches : List (List FileRef)) : List ParsedFile × List Diag :=
  if files.length < 3 then indexInline env files
  else indexPluginFilesModel env (indexSuppliedFilesModel env batches) pbatches

/-- `index` (src/main/pipeline/pipeline.cc lines 630..671): empty result
when stopping at `INIT`; the inline path for fewer than 3 files, the
worker-pool path otherwise; the returned trees are finally sorted by
`FileRef`. -/
def index (env : IndexEnv) (files : List FileRef)
    (batches pbatches : List (List FileRef)) : List ParsedFile × List Diag :=
  if env.opts.stopAfterPhase = Phase.INIT then ([], [])
  else
    (sortByFile (indexCore env files batches pbatches).fst,
     (indexCore env files batches pbatches).snd)

theorem indexOneUncaught_file (opts : Options) (level : StrictLevel) (ph : IndexPhases)
    (file : FileRef) :
    ∀ pf, indexOneUncaught opts level ph file = Except.ok pf → pf.file = file := by
  intro pf h
  unfold indexOneUncaught at h
  repeat' split at h
  all_goals
    first
      | exact Except.noConfusion h
      | (injection h with h2; subst h2; rfl)

theorem indexOneWithPluginsUncaught_file (opts : Options) (level : StrictLevel)
    (ph : IndexPhases) (file : FileRef) :
    ∀ pf gens, indexOneWithPluginsUncaught opts level ph file = Except.ok (pf, gens) →
      pf.file = file := by
  intro pf gens h
  unfold indexOneWithPluginsUncaught at h
  repeat' split at h
  all_goals
    first
      | exact Except.noConfusion h
      | (injection h with h2; rw [Prod.mk.injEq] at h2; obtain ⟨h3, h4⟩ := h2; subst h3; rfl)

theorem indexOne_file (opts : Options) (level : StrictLevel) (ph : IndexPhases)
    (file : FileRef) : (indexOne opts level ph file).fst.file = file := by
  unfold indexOne
  split
  next pf hok => exact indexOneUncaught_file opts level ph file pf hok
  next => rfl

theorem indexOneWithPlugins_file (opts : Options) (level : StrictLevel) (ph : IndexPhases)
    (file : FileRef) : (indexOneWithPlugins opts level ph file).fst.fst.file = file := by
  unfold indexOneWithPlugins
  split
  next r hok =>
    obtain ⟨pf, gens⟩ := r
    exact indexOneWithPluginsUncaught_file opts level ph file pf gens hok
  next => rfl

theorem indexPluginEntry_file (env : IndexEnv) (file : FileRef) :
    (indexPluginEntry env file).fst.file = file :=
  indexOne_file env.opts
    (decideStrictLevel env.opts env.runningUnderAutogen (env.fileData file)).fst
    env.phases file

theorem pluginOuts_files (env : IndexEnv) (gens : List GeneratedFile) :
    (((gens.map (fun gf => indexPluginEntry env (env.enterGenFile gf))).map
        Prod.fst).map (fun p => p.file)) = gens.map env.enterGenFile := by
  induction gens with
  | nil => rfl
  | cons g gsx ih =>
    simp only [List.map_cons]
    rw [ih, indexPluginEntry_file]

theorem indexInline_files (env : IndexEnv) :
    ∀ files, (indexInline env files).fst.map (fun p => p.file) =
      (files.map (fun f => f :: pluginRefsOfFile env f)).join := by
  intro files
  induction files with
  | nil => rfl
  | cons f fs ih =>
    simp only [indexInline, List.map_cons, List.map_append, List.join]
    rw [indexOneWithPlugins_file, pluginOuts_files, ih]
    rfl

theorem indexWorkerBatch_spec (env : IndexEnv) :
    ∀ b, ((indexWorkerBatch env b).fst.map (fun p => p.file)) = b
      ∧ (indexWorkerBatch env b).snd.fst = (b.map (gensOfFile env)).join := by
  intro b
  induction b with
  | nil => exact ⟨rfl, rfl⟩
  | cons f fs ih =>
    constructor
    · simp only [indexWorkerBatch, List.map_cons]
      rw [indexOneWithPlugins_file, ih.1]
    · simp only [indexWorkerBatch, List.map_cons, List.join]
      rw [ih.2]
      rfl

theorem substituteBatch_files (env : IndexEnv) (l : List ParsedFile) :
    (substituteBatch env l).map (fun p => p.file) = l.map (fun p => p.file) := by
  unfold substituteBatch
  rw [List.map_map]
  apply List.map_congr_left
  intro x hx
  show (if env.phases.cacheRead x.file ≠ none then x
    else { x with tree := env.substTree x.tree }).file = x.file
  split <;> rfl

theorem indexRestBatches_spec (env : IndexEnv) :
    ∀ bs, ((indexRestBatches env bs).fst.map (fun p => p.file)) = bs.join
      ∧ (indexRestBatches env bs).snd.fst = (bs.join.map (gensOfFile env)).join := by
  intro bs
  induction bs with
  | nil => exact ⟨rfl, rfl⟩
  | cons b bsx ih =>
    constructor
    · simp only [indexRestBatches, List.map_append, List.join]
      rw [substituteBatch_files, (indexWorkerBatch_spec env b).1, ih.1]
      rfl
    · simp only [indexRestBatches, List.join, List.map_append]
      rw [(indexWorkerBatch_spec env b).2, ih.2, ← List.join_append, ← List.map_append]
      rfl

theorem indexSuppliedFilesModel_spec (env : IndexEnv) (batches : List (List FileRef)) :
    ((indexSuppliedFilesModel env batches).fst.map (fun p => p.file)) = batches.join
    ∧ (indexSuppliedFilesModel env batches).snd.fst =
        (batches.join.map (gensOfFile env)).join := by
  cases batches with
  | nil => exact ⟨rfl, rfl⟩
  | cons b bs =>
    constructor
    · simp only [indexSuppliedFilesModel, List.map_append, List.join]
      rw [(indexWorkerBatch_spec env b).1, (indexRestBatches_spec env bs).1]
      rfl
    · simp only [indexSuppliedFilesModel, List.join, List.map_append]
      rw [(indexWorkerBatch_spec env b).2, (indexRestBatches_spec env bs).2,
        ← List.join_append, ← List.map_append]
      rfl

theorem pluginWorkerBatch_files (env : IndexEnv) :
    ∀ b, ((pluginWorkerBatch env b).fst.map (fun p => p.file)) = b := by
  intro b
  induction b with
  | nil => rfl
  | cons f fs ih =>
    simp only [pluginWorkerBatch, List.map_cons]
    rw [indexPluginEntry_file, ih]

theorem pluginRestBatches_files (env : IndexEnv) :
    ∀ bs, ((pluginRestBatches env bs).fst.map (fun p => p.file)) = bs.join := by
  intro bs
  induction bs with
  | nil => rfl
  | cons b bsx ih =>
    simp only [pluginRestBatches, List.map_append, List.join]
    rw [substituteBatch_files, pluginWorkerBatch_files, ih]
    rfl

theorem pluginMergeModel_files (env : IndexEnv) (pbatches : List (List FileRef)) :
    ((pluginMergeModel env pbatches).fst.map (fun p => p.file)) = pbatches.join := by
  cases pbatches with
  | nil => rfl
  | cons b bs =>
    simp only [pluginMergeModel, List.map_append, List.join]
    rw [pluginWorkerBatch_files, pluginRestBatches_files]
    rfl

theorem pluginRefsOf_eq_map (env : IndexEnv) (l : List FileRef) :
    pluginRefsOf env l = ((l.map (gensOfFile env)).join).map env.enterGenFile := by
  unfold pluginRefsOf pluginRefsOfFile
  rw [List.map_join, List.map_map]
  rfl

theorem mem_insertByFile (x : ParsedFile) :
    ∀ l z, z ∈ insertByFile x l ↔ z = x ∨ z ∈ l := by
  intro l
  induction l with
  | nil =>
    intro z
    simp [insertByFile]
  | cons y ys ih =>
    intro z
    unfold insertByFile
    split
    · simp [List.mem_cons]
    · simp only [List.mem_cons, ih z]
      tauto

theorem insertByFile_sorted (x : ParsedFile) :
    ∀ l, List.Pairwise (fun a b => a.file ≤ b.file) l →
      List.Pairwise (fun a b => a.file ≤ b.file) (insertByFile x l) := by
  intro l
  induction l with
  | nil =>
    intro h
    exact List.pairwise_singleton _ _
  | cons y ys ih =>
    intro h
    rcases List.pairwise_cons.mp h with ⟨hy, hys⟩
    unfold insertByFile
    split
    next hlt =>
      refine List.pairwise_cons.mpr ⟨?_, h⟩
      intro z hz
      rcases List.mem_cons.mp hz with hz | hz
      · subst hz
        exact Nat.le_of_lt hlt
      · exact Nat.le_trans (Nat.le_of_lt hlt) (hy z hz)
    next hnlt =>
      refine List.pairwise_cons.mpr ⟨?_, ih hys⟩
      intro z hz
      rcases (mem_insertByFile x ys z).mp hz with hz2 | hz2
      · subst hz2
        exact Nat.le_of_not_lt hnlt
      · exact hy z hz2

theorem sortByFile_sorted : ∀ l, List.Pairwise (fun a b => a.file ≤ b.file) (sortByFile l)
  | [] => List.Pairwise.nil
  | x :: xs => insertByFile_sorted x _ (sortByFile_sorted xs)

theorem insertByFile_perm (x : ParsedFile) : ∀ l, (insertByFile x l).Perm (x :: l) := by
  intro l
  induction l with
  | nil => exact List.Perm.refl _
  | cons y ys ih =>
    unfold insertByFile
    split
    · exact List.Perm.refl _
    · exact (ih.cons y).trans (List.Perm.swap x y ys)

theorem sortByFile_perm : ∀ l, (sortByFile l).Perm l
  | [] => List.Perm.refl _
  | x :: xs => (insertByFile_perm x (sortByFile xs)).trans ((sortByFile_perm xs).cons x)

theorem join_cons_perm (g : FileRef → List FileRef) :
    ∀ files : List FileRef,
      ((files.map (fun f => f :: g f)).join).Perm (files ++ (files.map g).join) := by
  intro files
  induction files with
  | nil => exact List.Perm.refl _
  | cons f fs ih =>
    show (f :: (g f ++ (fs.map (fun x => x :: g x)).join)).Perm
      (f :: (fs ++ (g f ++ (fs.map g).join)))
    refine List.Perm.cons f ?_
    have h1 : (g f ++ (fs.map (fun x => x :: g x)).join).Perm
        (g f ++ (fs ++ (fs.map g).join)) := List.Perm.append_left (g f) ih
    have h2 : (g f ++ (fs ++ (fs.map g).join)).Perm (fs ++ (g f ++ (fs.map g).join)) := by
      rw [← List.append_assoc, ← List.append_assoc]
      exact List.Perm.append_right _ List.perm_append_comm
    exact h1.trans h2

/-- C9: the vector of parsed files returned by the top-level `index` entry
point is sorted in ascending `FileRef` order, on both the inline (<3 files)
path and the worker-pool path, whatever worker partition and merge order
(`batches`, `pbatches`) occurred. -/
theorem index_sorted_by_fileref (env : IndexEnv) (files : List FileRef)
    (batches pbatches : List (List FileRef)) :
    List.Pairwise (fun a b => a.file ≤ b.file) (index env files batches pbatches).fst := by
  unfold index
  split
  · exact List.Pairwise.nil
  · exact sortByFile_sorted _

/-- C10: `index` returns exactly one parsed file per input `FileRef` plus
exactly one per entered plugin-generated file, on both paths: the multiset
of file refs of the result equals the input files plus the plugin-generated
refs.  A missing file, an `Ignore`d file, a `stopAfterPhase` stop, and a
file whose indexing threw each still contribute their one (empty-tree)
entry; no input file is dropped. -/
theorem index_one_entry_per_file (env : IndexEnv) (files : List FileRef)
    (batches pbatches : List (List FileRef))
    (hinit : ¬ env.opts.stopAfterPhase = Phase.INIT)
    (hb : batches.join.Perm files)
    (hp : pbatches.join.Perm (pluginRefsOf env files)) :
    ((index env files batches pbatches).fst.map (fun p => p.file)).Perm
      (files ++ pluginRefsOf env files) := by
  unfold index
  rw [if_neg hinit]
  refine ((sortByFile_perm _).map _).trans ?_
  unfold indexCore
  by_cases hlen : files.length < 3
  · rw [if_pos hlen, indexInline_files env files]
    exact join_cons_perm (pluginRefsOfFile env) files
  · rw [if_neg hlen]
    have hspec := indexSuppliedFilesModel_spec env batches
    have hRJ : (pluginRefsOf env batches.join).Perm (pluginRefsOf env files) :=
      hb.flatMap_right (pluginRefsOfFile env)
    cases hgens : (indexSuppliedFilesModel env batches).snd.fst with
    | nil =>
      have heval : indexPluginFilesModel env (indexSuppliedFilesModel env batches) pbatches =
          ((indexSuppliedFilesModel env batches).fst,
            (indexSuppliedFilesModel env batches).snd.snd) := by
        unfold indexPluginFilesModel
        rw [if_pos hgens]
      rw [heval]
      show (((indexSuppliedFilesModel env batches).fst).map (fun p => p.file)).Perm _
      rw [hspec.1]
      have hG : (batches.join.map (gensOfFile env)).join = [] := by
        rw [← hspec.2, hgens]
      have hRJnil : pluginRefsOf env batches.join = [] := by
        rw [pluginRefsOf_eq_map, hG]
        rfl
      have hRFnil : pluginRefsOf env files = [] := by
        have hx := hRJ
        rw [hRJnil] at hx
        exact (hx.symm).eq_nil
      rw [hRFnil, List.append_nil]
      exact hb
    | cons g gsx =>
      have hne : ¬ (indexSuppliedFilesModel env batches).snd.fst = [] := by
        rw [hgens]
        exact List.cons_ne_nil g gsx
      by_cases hm : (pluginMergeModel env pbatches).fst = []
      · exfalso
        have hpj : pbatches.join = [] := by
          rw [← pluginMergeModel_files env pbatches, hm]
          rfl
        have hRFnil : pluginRefsOf env files = [] := by
          have hx := hp
          rw [hpj] at hx
          exact (hx.symm).eq_nil
        have hRJnil : pluginRefsOf env batches.join = [] := by
          have hx := hRJ
          rw [hRFnil] at hx
          exact hx.eq_nil
        have hGnil : (batches.join.map (gensOfFile env)).join = [] := by
          have h2 := pluginRefsOf_eq_map env batches.join
          rw [hRJnil] at h2
          exact List.map_eq_nil.mp h2.symm
        have h3 := hspec.2
        rw [hgens, hGnil] at h3
        exact List.cons_ne_nil g gsx h3
      · have heval : indexPluginFilesModel env (indexSuppliedFilesModel env batches) pbatches =
            ((indexSuppliedFilesModel env batches).fst.map
                (fun t : ParsedFile => { t with tree := env.substTree t.tree })
              ++ (pluginMergeModel env pbatches).fst,
             (indexSuppliedFilesModel env batches).snd.snd
              ++ (pluginMergeModel env pbatches).snd) := by
          unfold indexPluginFilesModel
          rw [if_neg hne]
          dsimp only
          rw [if_neg hm]
        rw [heval]
        show ((((indexSuppliedFilesModel env batches).fst.map
              (fun t : ParsedFile => { t with tree := env.substTree t.tree }))
            ++ (pluginMergeModel env pbatches).fst).map (fun p : ParsedFile => p.file)).Perm _
        rw [List.map_append, List.map_map, pluginMergeModel_files]
        have hsub : ((indexSuppliedFilesModel env batches).fst.map
            ((fun p : ParsedFile => p.file) ∘ (fun t : ParsedFile => { t with tree := env.substTree t.tree })))
            = (indexSuppliedFilesModel env batches).fst.map (fun p => p.file) := by
          apply List.map_congr_left
          intro x hx
          rfl
        rw [hsub, hspec.1]
        exact List.Perm.append hb hp

/-- The concrete coordinator environment of the C10 witness: file 1 is
missing on disk and its parse throws; file 2 carries an `Ignore` sigil. -/
def envW : IndexEnv :=
  { opts := sampleOpts
  , runningUnderAutogen := false
  , fileData := fun f =>
      if f = 1 then ⟨"a", StrictLevel.None, false⟩ else ⟨"b", StrictLevel.Ignore, true⟩
  , phases := throwingPhases
  , enterGenFile := fun g => g
  , substTree := fun t => t }

/-- The witness environment stopped at `INIT`. -/
def envInitW : IndexEnv :=
  { envW with opts := { sampleOpts with stopAfterPhase := Phase.INIT } }

/-- C10 (counterexample): when `stopAfterPhase` is `INIT` the entry point
returns an empty vector even for a nonempty input, so the input file
contributes no entry at all and the per-file accounting fails. -/
theorem index_init_counterexample :
    ((index envInitW [1] [[1]] [[]]).fst.map (fun p => p.file)) = []
    ∧ ¬ (((index envInitW [1] [[1]] [[]]).fst.map (fun p => p.file)).Perm
        ([1] ++ pluginRefsOf envInitW [1])) := by
  constructor
  · rfl
  · intro hperm
    have h1 : ([] : List FileRef).Perm ([1] ++ pluginRefsOf envInitW [1]) := hperm
    have h2 := h1.symm.eq_nil
    simp at h2

/-- C10 (witness): with a missing, throwing file 1 and an `Ignore`d file 2,
both still contribute exactly one entry each (and there are no
plugin-generated files). -/
theorem index_one_entry_per_file_witness :
    ((index envW [1, 2] [[1, 2]] [[]]).fst.map (fun p => p.file)).Perm
      ([1, 2] ++ pluginRefsOf envW [1, 2]) := by
  have h : pluginRefsOf envW [1, 2] = [] := rfl
  exact index_one_entry_per_file envW [1, 2] [[1, 2]] [[]] (by decide)
    (List.Perm.refl _) (by rw [h]; exact List.Perm.refl _)

end Sorbet
